import Mathlib

/-!
Verification of the ordered key-value reconciliation engine embedded in
`src/dashboardv2/src/EnvEditor.tsx` (class `EnvState`, its mutation methods,
and the surrounding reconciler in `WrappedEnvEditor._getData`), together with
the diff engine (`protoMapDiff` / `applyProtoMapDiff`) that the component
imports.

Conventions of the shallow embedding:
* a `jspb.Map` is represented by its backing array of `(key, value)` string
  pairs (`OM`); the class only ever builds fresh maps from arrays and reads
  them back with `toArray`, so the backing array is the whole state.
  `jspb.Map.get` resolves a key to the *last* pair carrying it, and
  `jspb.Map.getLength` counts *distinct* keys (the map deduplicates on load).
* JavaScript objects used as sets of indices (`deletedIndices`,
  `changedIndices`) are represented by `Finset Nat`; the object used as a
  key-to-index map (`uniqueKeyMap`) by an association list.
* all definitions are executable so concrete runs can be checked by `decide`.
-/

/-- Backing array of a `jspb.Map<string, string>`: an ordered list of
(key, value) pairs. -/
abbrev OM := List (String × String)

/-- `jspb.Map.get`: the map deduplicates its backing array front to back, so a
lookup returns the value of the *last* pair whose key matches (or `none`). -/
def omGet (m : OM) (k : String) : Option String :=
  match m with
  | [] => none
  | p :: rest =>
    match omGet rest k with
    | some v => some v
    | none => if p.1 = k then some p.2 else none

/-- Keys of the backing array, in order. -/
def keysOf (m : OM) : List String := m.map Prod.fst

/-- `jspb.Map.getLength`: number of distinct keys in the backing array. -/
def getLengthJS (m : OM) : Nat := (keysOf m).dedup.length

/-- A diff operation, as produced by `protoMapDiff`: `{op: 'add', key, value}`
or `{op: 'remove', key}`. -/
inductive DiffOp where
  | add (key value : String)
  | remove (key : String)
deriving DecidableEq, Repr

/-- The key an operation refers to. -/
def DiffOp.opKey : DiffOp → String
  | .add k _ => k
  | .remove k => k

/-- Modelled from the spec: `protoMapDiff` (imported by `EnvEditor.tsx` from
`./util/protoMapDiff`, whose source is not in the repository snapshot).
Spec section 4.2: for every key present in `to` with non-empty value but
absent or differing in `from`, emit `Add(key, value)`; for every key present
in `from` but absent from `to` (or present with an empty value in `to`), emit
`Remove(key)`; adds are emitted in `to`'s order and removes in `from`'s
order (an ordering the spec explicitly allows). -/
def diffOps (f t : OM) : List DiffOp :=
  (t.filter (fun p => decide (p.2 ≠ "" ∧ omGet f p.1 ≠ some p.2))).map
      (fun p => DiffOp.add p.1 p.2)
    ++ (f.filter (fun p => decide (omGet t p.1 = none ∨ omGet t p.1 = some ""))).map
      (fun p => DiffOp.remove p.1)

/-- Modelled from the spec: one step of `applyProtoMapDiff` (imported by
`EnvEditor.tsx` from `./util/protoMapDiff`, whose source is not in the
repository snapshot). Spec section 4.2: `Add(key, value)` upserts, appending
if the key is new and overwriting the existing slot in place if present;
`Remove(key)` deletes the entry with that key if present (no-op otherwise). -/
def applyOpOM (m : OM) (op : DiffOp) : OM :=
  match op with
  | .add k v =>
    if m.any (fun p => decide (p.1 = k)) then
      m.map (fun p => if p.1 = k then (k, v) else p)
    else m ++ [(k, v)]
  | .remove k => m.filter (fun p => decide (p.1 ≠ k))

/-- Modelled from the spec: `applyProtoMapDiff` replays the operations of a
diff, in order, onto a base map. -/
def applyDiffOM (m : OM) (d : List DiffOp) : OM := d.foldl applyOpOM m

/-- The non-empty pairs of a map: exactly the filter `EnvState.entries` uses
(`entry[0] !== '' && entry[1] !== ''`), which section 8 of the spec compares
as sets. -/
def nonEmptyPairs (m : OM) : OM :=
  m.filter (fun p => decide (p.1 ≠ "" ∧ p.2 ≠ ""))

/-- Modelled from the spec: the `fz` fuzzy matcher (third-party package `fz`,
not part of the repository): a case-insensitive subsequence match of the
filter text against the key. -/
def isSubseq : List Char → List Char → Bool
  | [], _ => true
  | _ :: _, [] => false
  | a :: as, b :: bs => if a == b then isSubseq as bs else isSubseq (a :: as) bs

/-- Modelled from the spec: `fz(key, filterText)` — case-insensitive
fuzzy/subsequence match of the filter text against the key. -/
def fzMatch (key filterText : String) : Bool :=
  isSubseq filterText.toLower.toList key.toLower.toList

/-- `entriesEqual` from `EnvEditor.tsx`: `a && b && a[0] === b[0] && a[1] === b[1]`,
where a missing array slot (`undefined`) is falsy. -/
def entriesEqual (a b : Option (String × String)) : Bool :=
  match a, b with
  | some x, some y => x.1 == y.1 && x.2 == y.2
  | _, _ => false

/-- JavaScript `entries[index] = pair` on a copy of the backing array: an
in-bounds index overwrites the slot, `index = length` appends, and a larger
index pads the gap (JS array holes; every later read of a hole goes through
`(entries[i] || [])[j] || ''`, i.e. reads as the empty pair). -/
def setSlot (l : OM) (i : Nat) (p : String × String) : OM :=
  if i < l.length then l.set i p
  else l ++ List.replicate (i - l.length) ("", "") ++ [p]

/-- `(entries[index] || [])[0] || ''`. -/
def keyAt (l : OM) (i : Nat) : String := ((l[i]?).map Prod.fst).getD ""

/-- `(entries[index] || [])[1] || ''`. -/
def valAt (l : OM) (i : Nat) : String := ((l[i]?).map Prod.snd).getD ""

/-- The JS-object key→index map `uniqueKeyMap`; assignment `m[key] = index`
overwrites the binding if the key is present, otherwise adds it. -/
def upsertUkm (m : List (String × Nat)) (k : String) (i : Nat) : List (String × Nat) :=
  if m.any (fun q => decide (q.1 = k)) then
    m.map (fun q => if q.1 = k then (k, i) else q)
  else m ++ [(k, i)]

/-- `uniqueKeyMap[key]`; the stored indices are all ≥ 0, so the source's
`uniqueKeyMap[key] > -1` test is exactly "the key is bound". -/
def lookupUkm (m : List (String × Nat)) (k : String) : Option Nat :=
  (m.find? (fun q => decide (q.1 = k))).map Prod.snd

/-- The state of one `EnvState` object from `EnvEditor.tsx`: the backing
array of its `jspb.Map` `_entries`, the `_state` record, and the public
cached fields `length`, `deletedLength`, `hasChanges`. -/
structure EnvState where
  entriesArr : OM
  originalEntries : OM
  uniqueKeyMap : List (String × Nat)
  filterText : String
  deletedIndices : Finset Nat
  changedIndices : Finset Nat
  length : Nat
  deletedLength : Nat
  hasChanges : Bool
deriving DecidableEq

/-- `EnvState` constructor with `state = null`: `uniqueKeyMap` is built by a
reduce that writes `m[key] = index` over the baseline in order,
`length = entries.getLength()` (distinct keys), `deletedLength` is recomputed
and `hasChanges` is never assigned (undefined, hence falsy). -/
def mkEnvState (entries : OM) : EnvState where
  entriesArr := entries
  originalEntries := entries
  uniqueKeyMap := entries.enum.foldl (fun m q => upsertUkm m q.2.1 q.1) []
  filterText := ""
  deletedIndices := ∅
  changedIndices := ∅
  length := getLengthJS entries
  deletedLength := 0
  hasChanges := false

/-- `EnvState._trackChanges(index)`: a deleted index is marked changed iff it
lies inside the original baseline; a live index is marked changed iff its
current pair differs from the original pair at that index; then `hasChanges`
is recomputed as `Object.keys(changedIndices).length > 0`. -/
def trackChanges (s : EnvState) (index : Nat) : EnvState :=
  let changed :=
    if index ∈ s.deletedIndices then
      if index < s.originalEntries.length then insert index s.changedIndices
      else s.changedIndices.erase index
    else if entriesEqual s.originalEntries[index]? s.entriesArr[index]? then
      s.changedIndices.erase index
    else insert index s.changedIndices
  { s with changedIndices := changed, hasChanges := decide (0 < changed.card) }

/-- `EnvState.removeEntryAtIndex(index)`: record the tombstone, recompute
`deletedLength` (`_setDeletedLength`), then `_trackChanges(index)`. -/
def removeEntryAtIndex (s : EnvState) (index : Nat) : EnvState :=
  trackChanges
    { s with
      deletedIndices := insert index s.deletedIndices
      deletedLength := (insert index s.deletedIndices).card }
    index

/-- `EnvState.setKeyAtIndex(index, key)`: clear the tombstone at `index`,
recompute `deletedLength`, rewrite the slot to `[key, existing value or '']`,
update `length`, run `_trackChanges(index)`, and if `uniqueKeyMap` binds
`key` to a different index, remove that other index (last-write-wins) and
repoint the binding. -/
def setKeyAtIndex (s : EnvState) (index : Nat) (key : String) : EnvState :=
  let s1 : EnvState := { s with deletedIndices := s.deletedIndices.erase index }
  let s2 : EnvState := { s1 with deletedLength := s1.deletedIndices.card }
  let arr := setSlot s2.entriesArr index (key, valAt s2.entriesArr index)
  let s3 : EnvState := { s2 with entriesArr := arr, length := arr.length }
  let s4 := trackChanges s3 index
  match lookupUkm s4.uniqueKeyMap key with
  | some j =>
    if j ≠ index ∧ index < arr.length then
      let s5 := removeEntryAtIndex s4 j
      { s5 with uniqueKeyMap := upsertUkm s5.uniqueKeyMap key index }
    else s4
  | none => s4

/-- `EnvState.setValueAtIndex(index, val)`: rewrite the slot to
`[existing key or '', val]`, update `length`; if both the new value and the
key are empty, remove the entry, otherwise `_trackChanges(index)`. -/
def setValueAtIndex (s : EnvState) (index : Nat) (val : String) : EnvState :=
  let arr := setSlot s.entriesArr index (keyAt s.entriesArr index, val)
  let s1 : EnvState := { s with entriesArr := arr, length := arr.length }
  if val = "" ∧ keyAt arr index = "" then removeEntryAtIndex s1 index
  else trackChanges s1 index

/-- `EnvState.dup()`: `new EnvState(this._entries, Object.assign({}, this._state))`
viewed as a value: the constructor recomputes `length` via `getLength()`
(distinct keys), recomputes `deletedLength`, and leaves `hasChanges`
unassigned (falsy). `Object.assign` copies the `_state` fields by reference;
the aliasing this creates between the two objects is modelled separately by
`afterDupMutation`. -/
def dupE (s : EnvState) : EnvState :=
  { s with
    length := getLengthJS s.entriesArr
    deletedLength := s.deletedIndices.card
    hasChanges := false }

/-- Observable state of the *original* session `s` after a mutation produced
`s2fin` from `s.dup()`: `Object.assign({}, this._state)` copies the nested
`deletedIndices`, `changedIndices` and `uniqueKeyMap` objects by reference,
and every mutation writes into those shared objects in place, so the
original's `_state` sees the mutated sets; its own `_entries`, `length`,
`deletedLength` and `hasChanges` fields are untouched. -/
def afterDupMutation (s s2fin : EnvState) : EnvState :=
  { s with
    deletedIndices := s2fin.deletedIndices
    changedIndices := s2fin.changedIndices
    uniqueKeyMap := s2fin.uniqueKeyMap }

/-- `EnvState.entries()` with the filter's index kept: the pairs whose index
is not tombstoned and whose key and value are both non-empty. -/
def entriesIdx (s : EnvState) : List (Nat × (String × String)) :=
  s.entriesArr.enum.filter
    (fun q => decide (q.1 ∉ s.deletedIndices ∧ q.2.1 ≠ "" ∧ q.2.2 ≠ ""))

/-- `EnvState.entries()`: the backing array filtered to live, non-empty
pairs (the returned `jspb.Map` is represented by its backing array). -/
def entriesOf (s : EnvState) : OM := (entriesIdx s).map Prod.snd

/-- `EnvState.map(fn)`: a reduce over the backing array that skips tombstoned
indices and, when a filter text is set, keys that fail the `fz` match; one
synthetic trailing empty pair at index `this.length` is always appended. -/
def mapE {T : Type} (s : EnvState) (f : (String × String) → Nat → T) : List T :=
  (s.entriesArr.enum.foldl
    (fun prev q =>
      if q.1 ∈ s.deletedIndices then prev
      else if s.filterText ≠ "" ∧ fzMatch q.2.1 s.filterText = false then prev
      else prev ++ [f q.2 q.1])
    []) ++ [f ("", "") s.length]

/-- The entries `EnvState.map` visits before the synthetic trailing row:
live indices whose key passes the filter. -/
def mapVisited (s : EnvState) : List (Nat × (String × String)) :=
  s.entriesArr.enum.filter
    (fun q => decide (q.1 ∉ s.deletedIndices ∧
      (s.filterText = "" ∨ fzMatch q.2.1 s.filterText = true)))

/-- `EnvState.mapDeleted(fn)`: a reduce over the backing array keeping exactly
the tombstoned indices. -/
def mapDeletedE {T : Type} (s : EnvState) (f : (String × String) → Nat → T) : List T :=
  s.entriesArr.enum.foldl
    (fun prev q => if q.1 ∈ s.deletedIndices then prev ++ [f q.2 q.1] else prev)
    []

/-- The entries `EnvState.mapDeleted` visits: exactly the tombstoned indices
of the backing array. -/
def mapDeletedVisited (s : EnvState) : List (Nat × (String × String)) :=
  s.entriesArr.enum.filter (fun q => decide (q.1 ∈ s.deletedIndices))

/-- The index an `add` operation of `EnvState.applyDiff` writes to: the first
backing index whose key matches (`findIndex`, ignoring tombstones), or the
backing array's length when the key is absent (`index === -1`). -/
def upsertIndex (s : EnvState) (k : String) : Nat :=
  (s.entriesArr.findIdx? (fun p => p.1 == k)).getD s.entriesArr.length

/-- One step of `EnvState.applyDiff`: look up the first backing index whose
key matches the operation's key; an `add` with a non-empty value writes key
and value at that index (appending when absent), an `add` with an empty value
does nothing, a `remove` tombstones the index when present. -/
def applyDiffOpE (s : EnvState) (op : DiffOp) : EnvState :=
  let index? := s.entriesArr.findIdx? (fun p => p.1 == op.opKey)
  match op with
  | .add key value =>
    if value ≠ "" then
      let index := index?.getD s.entriesArr.length
      setValueAtIndex (setKeyAtIndex s index key) index value
    else s
  | .remove _ =>
    match index? with
    | some index => removeEntryAtIndex s index
    | none => s

/-- `EnvState.applyDiff(diff)`: fold the operations over the session. -/
def applyDiffE (s : EnvState) (d : List DiffOp) : EnvState := d.foldl applyDiffOpE s

/-- A release as consumed by `WrappedEnvEditor`: its name and its env map. -/
structure Release where
  name : String
  envMap : OM
deriving DecidableEq, Repr

/-- The release-name guard in `WrappedEnvEditor._getData`:
`!prevRelease || prevRelease.getName() !== release.getName()`. -/
def isNewRelease (prevRelease : Option Release) (release : Release) : Bool :=
  match prevRelease with
  | none => true
  | some pr => pr.name != release.name

/-- The previous baseline used for the diff:
`prevRelease ? prevRelease.getEnvMap() : new jspb.Map([])`. -/
def prevBaselineOf (prevRelease : Option Release) : OM :=
  match prevRelease with
  | none => []
  | some pr => pr.envMap

/-- The reconciliation step of `WrappedEnvEditor._getData`'s stream callback:
build a fresh `EnvState` from the incoming release; if the release is new and
the previous session has uncommitted changes, compute the diff from the
previous baseline to the previous session's entries and, when non-empty,
apply it to the fresh session. -/
def getDataStep (prevRelease : Option Release) (prevEnvState : Option EnvState)
    (release : Release) : EnvState :=
  let envState := mkEnvState release.envMap
  if isNewRelease prevRelease release then
    match prevEnvState with
    | some prevEnv =>
      if prevEnv.hasChanges then
        let envDiff := diffOps (prevBaselineOf prevRelease) (entriesOf prevEnv)
        if envDiff.length ≠ 0 then applyDiffE envState envDiff else envState
      else envState
    | none => envState
  else envState

/-- The sessions reachable through the editor: built from a baseline and
mutated through the four mutation entry points, always at an index the UI can
produce (an existing row or the synthetic trailing row). -/
inductive Reachable : EnvState → Prop where
  | mk (baseline : OM) : Reachable (mkEnvState baseline)
  | setKey {s : EnvState} (i : Nat) (k : String) : Reachable s →
      i ≤ s.entriesArr.length → Reachable (setKeyAtIndex s i k)
  | setVal {s : EnvState} (i : Nat) (v : String) : Reachable s →
      i ≤ s.entriesArr.length → Reachable (setValueAtIndex s i v)
  | remove {s : EnvState} (i : Nat) : Reachable s →
      i ≤ s.entriesArr.length → Reachable (removeEntryAtIndex s i)
  | applyD {s : EnvState} (d : List DiffOp) : Reachable s →
      Reachable (applyDiffE s d)

section OmGetLemmas

theorem omGet_append (a b : OM) (k : String) :
    omGet (a ++ b) k =
      match omGet b k with
      | some v => some v
      | none => omGet a k := by
  induction a with
  | nil => cases h : omGet b k <;> simp [omGet, h]
  | cons p rest ih =>
    cases h : omGet b k <;>
      simp only [h] at ih <;>
      simp [omGet, List.cons_append, ih, h]

theorem omGet_eq_none_iff (m : OM) (k : String) :
    omGet m k = none ↔ k ∉ keysOf m := by
  induction m with
  | nil => simp [omGet, keysOf]
  | cons p rest ih =>
    simp only [omGet, keysOf, List.map_cons, List.mem_cons]
    cases h : omGet rest k with
    | some v =>
      have hk : k ∈ keysOf rest := by
        by_contra hc
        rw [ih.mpr hc] at h
        cases h
      simp only [reduceCtorEq, false_iff, not_not]
      exact Or.inr hk
    | none =>
      have hrest : k ∉ keysOf rest := ih.mp h
      by_cases hpk : p.1 = k
      · simp [hpk]
      · have h1 : ¬ k = p.1 := fun he => hpk he.symm
        simp only [if_neg hpk, true_iff]
        intro hc
        rcases hc with hc | hc
        · exact h1 hc
        · exact hrest hc

theorem omGet_mem (m : OM) (k v : String) (h : omGet m k = some v) : (k, v) ∈ m := by
  induction m with
  | nil => simp [omGet] at h
  | cons p rest ih =>
    obtain ⟨a, b⟩ := p
    simp only [omGet] at h
    cases hr : omGet rest k with
    | some w =>
      rw [hr] at h
      cases h
      exact List.mem_cons_of_mem _ (ih hr)
    | none =>
      rw [hr] at h
      by_cases hk : a = k
      · subst hk
        simp only [if_pos rfl] at h
        cases h
        exact List.mem_cons_self _ _
      · simp [hk] at h

theorem mem_omGet (m : OM) (k v : String) (hnd : (keysOf m).Nodup)
    (h : (k, v) ∈ m) : omGet m k = some v := by
  induction m with
  | nil => simp at h
  | cons p rest ih =>
    simp only [keysOf, List.map_cons, List.nodup_cons] at hnd
    rcases List.mem_cons.mp h with he | hm
    · subst he
      have : omGet rest k = none := by
        rw [omGet_eq_none_iff]
        exact hnd.1
      simp [omGet, this]
    · have := ih hnd.2 hm
      simp [omGet, this]

end OmGetLemmas

section ApplyOpLemmas

theorem keysOf_overwrite (m : OM) (k v : String) :
    keysOf (m.map (fun p => if p.1 = k then (k, v) else p)) = keysOf m := by
  simp only [keysOf, List.map_map]
  apply List.map_congr_left
  intro p _
  by_cases h : p.1 = k <;> simp [h]

theorem omGet_overwrite_self (m : OM) (k v : String) (h : k ∈ keysOf m) :
    omGet (m.map (fun p => if p.1 = k then (k, v) else p)) k = some v := by
  induction m with
  | nil => simp [keysOf] at h
  | cons p rest ih =>
    simp only [List.map_cons, omGet]
    by_cases hr : k ∈ keysOf rest
    · rw [ih hr]
    · have hnone : omGet (rest.map (fun p => if p.1 = k then (k, v) else p)) k = none := by
        rw [omGet_eq_none_iff, keysOf_overwrite]
        exact hr
      rw [hnone]
      have hpk : p.1 = k := by
        simp only [keysOf, List.map_cons, List.mem_cons] at h
        rcases h with h | h
        · exact h.symm
        · exact absurd h hr
      simp [hpk]

theorem omGet_overwrite_ne (m : OM) (k v k' : String) (h : k' ≠ k) :
    omGet (m.map (fun p => if p.1 = k then (k, v) else p)) k' = omGet m k' := by
  induction m with
  | nil => simp
  | cons p rest ih =>
    simp only [List.map_cons, omGet, ih]
    cases omGet rest k' with
    | some w => simp
    | none =>
      by_cases hpk : p.1 = k
      · have h1 : ¬ k = k' := fun he => h he.symm
        simp [hpk, h1, hpk ▸ h1]
      · simp [hpk]

theorem omGet_filterNe_self (m : OM) (k : String) :
    omGet (m.filter (fun p => decide (p.1 ≠ k))) k = none := by
  rw [omGet_eq_none_iff]
  intro hc
  simp only [keysOf, List.mem_map] at hc
  obtain ⟨p, hp, hpk⟩ := hc
  rw [List.mem_filter] at hp
  have := hp.2
  simp only [decide_eq_true_eq] at this
  exact this hpk

theorem omGet_filterNe_ne (m : OM) (k k' : String) (h : k' ≠ k) :
    omGet (m.filter (fun p => decide (p.1 ≠ k))) k' = omGet m k' := by
  induction m with
  | nil => simp
  | cons p rest ih =>
    by_cases hpk : p.1 = k
    · have hne : ¬ p.1 = k' := fun he => h (he ▸ hpk)
      rw [List.filter_cons_of_neg (by simp [hpk])]
      rw [ih]
      simp only [omGet]
      cases omGet rest k' with
      | some w => simp
      | none => simp [hne]
    · rw [List.filter_cons_of_pos (by simp [hpk])]
      simp only [omGet, ih]

theorem omGet_applyOp_add_self (m : OM) (k v : String) :
    omGet (applyOpOM m (.add k v)) k = some v := by
  simp only [applyOpOM]
  by_cases h : m.any (fun p => decide (p.1 = k))
  · rw [if_pos h]
    apply omGet_overwrite_self
    rw [List.any_eq_true] at h
    obtain ⟨p, hp, hpk⟩ := h
    simp only [decide_eq_true_eq] at hpk
    exact hpk ▸ List.mem_map_of_mem Prod.fst hp
  · rw [if_neg h, omGet_append]
    simp [omGet]

theorem omGet_applyOp_remove_self (m : OM) (k : String) :
    omGet (applyOpOM m (.remove k)) k = none :=
  omGet_filterNe_self m k

theorem omGet_applyOp_ne (m : OM) (op : DiffOp) (k' : String) (h : op.opKey ≠ k') :
    omGet (applyOpOM m op) k' = omGet m k' := by
  cases op with
  | add k v =>
    simp only [DiffOp.opKey] at h
    simp only [applyOpOM]
    by_cases hany : m.any (fun p => decide (p.1 = k))
    · rw [if_pos hany]
      exact omGet_overwrite_ne m k v k' (Ne.symm h)
    · rw [if_neg hany, omGet_append]
      simp [omGet, h]
  | remove k =>
    simp only [DiffOp.opKey] at h
    exact omGet_filterNe_ne m k k' (Ne.symm h)

theorem nodup_keys_applyOp (m : OM) (op : DiffOp) (h : (keysOf m).Nodup) :
    (keysOf (applyOpOM m op)).Nodup := by
  cases op with
  | add k v =>
    simp only [applyOpOM]
    by_cases hany : m.any (fun p => decide (p.1 = k))
    · rw [if_pos hany, keysOf_overwrite]
      exact h
    · rw [if_neg hany]
      simp only [keysOf, List.map_append]
      rw [List.nodup_append]
      refine ⟨h, List.nodup_singleton k, ?_⟩
      intro a ha hb
      simp only [List.map_cons, List.map_nil, List.mem_singleton] at hb
      subst hb
      rw [List.any_eq_true] at hany
      apply hany
      simp only [keysOf, List.mem_map] at ha
      obtain ⟨p, hp, hpk⟩ := ha
      exact ⟨p, hp, by simp [hpk]⟩
  | remove k =>
    exact ((List.filter_sublist m).map Prod.fst).nodup h

theorem nodup_keys_applyDiff (m : OM) (d : List DiffOp) (h : (keysOf m).Nodup) :
    (keysOf (applyDiffOM m d)).Nodup := by
  induction d generalizing m with
  | nil => exact h
  | cons op d ih => exact ih _ (nodup_keys_applyOp m op h)

theorem omGet_applyDiff_of_not_mem (m : OM) (d : List DiffOp) (k : String)
    (h : ∀ op ∈ d, op.opKey ≠ k) :
    omGet (applyDiffOM m d) k = omGet m k := by
  induction d generalizing m with
  | nil => rfl
  | cons op d ih =>
    have : omGet (applyOpOM m op) k = omGet m k :=
      omGet_applyOp_ne m op k (h op (List.mem_cons_self _ _))
    rw [applyDiffOM, List.foldl_cons, ← applyDiffOM, ih _ (fun o ho => h o (List.mem_cons_of_mem _ ho)), this]

theorem any_map_eq {α β : Type} (f : α → β) (p : β → Bool) (l : List α) :
    (l.map f).any p = l.any (fun a => p (f a)) := by
  induction l with
  | nil => rfl
  | cons a l ih => simp [List.any_cons, ih]

theorem find?_map_eq {α β : Type} (f : α → β) (p : β → Bool) (l : List α) :
    (l.map f).find? p = (l.find? (fun a => p (f a))).map f := by
  induction l with
  | nil => simp
  | cons a l ih =>
    by_cases h : p (f a)
    · simp [List.find?_cons, h]
    · simp only [List.map_cons, List.find?_cons, h]
      simpa [h] using ih

theorem omGet_applyDiff_removes (rs : List DiffOp) (k : String)
    (hall : ∀ op ∈ rs, ∃ k', op = .remove k') (m : OM) :
    omGet (applyDiffOM m rs) k =
      if rs.any (fun op => decide (op.opKey = k)) then none else omGet m k := by
  induction rs generalizing m with
  | nil => simp [applyDiffOM]
  | cons r rs ih =>
    obtain ⟨k', rfl⟩ := hall r (List.mem_cons_self _ _)
    have hstep : applyDiffOM m (DiffOp.remove k' :: rs) =
        applyDiffOM (applyOpOM m (DiffOp.remove k')) rs := rfl
    rw [hstep, ih (fun o ho => hall o (List.mem_cons_of_mem _ ho))]
    by_cases hk : k' = k
    · subst hk
      simp [DiffOp.opKey, omGet_applyOp_remove_self]
    · have : omGet (applyOpOM m (DiffOp.remove k')) k = omGet m k :=
        omGet_applyOp_ne m _ k hk
    -- the head contributes nothing to `any`
      simp [this, List.any_cons, DiffOp.opKey, hk]

theorem omGet_applyDiff_adds (as : List DiffOp) (k : String)
    (hall : ∀ op ∈ as, ∃ a b, op = .add a b)
    (hnd : (as.map DiffOp.opKey).Nodup) (m : OM) :
    omGet (applyDiffOM m as) k =
      match as.find? (fun op => decide (op.opKey = k)) with
      | some (.add _ v) => some v
      | _ => omGet m k := by
  induction as generalizing m with
  | nil => simp [applyDiffOM]
  | cons a as ih =>
    obtain ⟨ka, va, rfl⟩ := hall a (List.mem_cons_self _ _)
    simp only [List.map_cons, List.nodup_cons, DiffOp.opKey] at hnd
    have hstep : applyDiffOM m (DiffOp.add ka va :: as) =
        applyDiffOM (applyOpOM m (DiffOp.add ka va)) as := rfl
    by_cases hk : k = ka
    · subst hk
      have hnotail : ∀ op ∈ as, op.opKey ≠ k := by
        intro op hop he
        apply hnd.1
        rw [← he]
        exact List.mem_map_of_mem DiffOp.opKey hop
      rw [hstep, omGet_applyDiff_of_not_mem _ _ _ hnotail, omGet_applyOp_add_self]
      simp [List.find?_cons, DiffOp.opKey]
    · rw [hstep, ih (fun o ho => hall o (List.mem_cons_of_mem _ ho)) hnd.2]
      have hka : ka ≠ k := fun he => hk he.symm
      have hhead : omGet (applyOpOM m (DiffOp.add ka va)) k = omGet m k :=
        omGet_applyOp_ne m _ k hka
      rw [List.find?_cons]
      have hdec : decide ((DiffOp.add ka va).opKey = k) = false := by
        simp [DiffOp.opKey, hka]
      rw [hdec]
      cases hf : as.find? (fun op => decide (op.opKey = k)) with
      | none => simp [hhead]
      | some q =>
        obtain ⟨a', b', rfl⟩ := hall q (List.mem_cons_of_mem _ (List.mem_of_find?_eq_some hf))
        simp

/-- Claim C1 — round-trip of the diff engine: for canonical OrderedMaps `A`
and `B` (no duplicate keys, the OrderedMap invariant of spec section 3),
applying `diff(A, B)` to `A` yields a map whose non-empty entries equal `B`'s
non-empty entries as sets of pairs. -/
theorem diff_apply_roundtrip (A B : OM)
    (hA : (keysOf A).Nodup) (hB : (keysOf B).Nodup) (p : String × String) :
    p ∈ nonEmptyPairs (applyDiffOM A (diffOps A B)) ↔ p ∈ nonEmptyPairs B := by
  obtain ⟨k, v⟩ := p
  set cA : String × String → Bool :=
    fun p => decide (p.2 ≠ "" ∧ omGet A p.1 ≠ some p.2) with hcA
  set cR : String × String → Bool :=
    fun p => decide (omGet B p.1 = none ∨ omGet B p.1 = some "") with hcR
  set adds : List DiffOp := (B.filter cA).map (fun p => DiffOp.add p.1 p.2) with hadds
  set removes : List DiffOp := (A.filter cR).map (fun p => DiffOp.remove p.1) with hremoves
  have hdiff : diffOps A B = adds ++ removes := rfl
  have hsplit : applyDiffOM A (diffOps A B) =
      applyDiffOM (applyDiffOM A adds) removes := by
    rw [hdiff]
    simp [applyDiffOM, List.foldl_append]
  have hallAdds : ∀ op ∈ adds, ∃ a b, op = .add a b := by
    intro op hop
    rw [hadds, List.mem_map] at hop
    obtain ⟨q, _, rfl⟩ := hop
    exact ⟨q.1, q.2, rfl⟩
  have hallRem : ∀ op ∈ removes, ∃ k', op = .remove k' := by
    intro op hop
    rw [hremoves, List.mem_map] at hop
    obtain ⟨q, _, rfl⟩ := hop
    exact ⟨q.1, rfl⟩
  have hndAdds : (adds.map DiffOp.opKey).Nodup := by
    rw [hadds, List.map_map]
    have : (DiffOp.opKey ∘ fun p : String × String => DiffOp.add p.1 p.2) = Prod.fst := by
      funext q
      rfl
    rw [this]
    exact ((List.filter_sublist B).map Prod.fst).nodup hB
  have hndR : (keysOf (applyDiffOM A (diffOps A B))).Nodup :=
    nodup_keys_applyDiff A _ hA
  have hBget : ∀ w, (k, w) ∈ B → omGet B k = some w := fun w hw => mem_omGet B k w hB hw
  -- the value of the round-tripped map at k
  have hget : omGet (applyDiffOM A (diffOps A B)) k =
      if removes.any (fun op => decide (op.opKey = k)) then none
      else
        match adds.find? (fun op => decide (op.opKey = k)) with
        | some (.add _ w) => some w
        | _ => omGet A k := by
    rw [hsplit, omGet_applyDiff_removes removes k hallRem,
      omGet_applyDiff_adds adds k hallAdds hndAdds]
  -- characterisation of the remove-op test
  have hremAny : removes.any (fun op => decide (op.opKey = k)) = true ↔
      (k ∈ keysOf A ∧ (omGet B k = none ∨ omGet B k = some "")) := by
    rw [hremoves, any_map_eq, List.any_eq_true]
    constructor
    · rintro ⟨q, hq, hdec⟩
      rw [List.mem_filter] at hq
      simp only [DiffOp.opKey, decide_eq_true_eq] at hdec
      rw [hcR] at hq
      simp only [decide_eq_true_eq] at hq
      exact ⟨hdec ▸ List.mem_map_of_mem Prod.fst hq.1, hdec ▸ hq.2⟩
    · rintro ⟨hkA, hBk⟩
      simp only [keysOf, List.mem_map] at hkA
      obtain ⟨q, hqA, hqk⟩ := hkA
      refine ⟨q, ?_, ?_⟩
      · rw [List.mem_filter]
        refine ⟨hqA, ?_⟩
        rw [hcR]
        simp only [decide_eq_true_eq]
        rw [hqk]
        exact hBk
      · simp [DiffOp.opKey, hqk]
  -- characterisation of the add-op lookup
  have hfindEq : adds.find? (fun op => decide (op.opKey = k)) =
      ((B.filter cA).find? (fun q => decide (q.1 = k))).map
        (fun p => DiffOp.add p.1 p.2) := by
    rw [hadds, find?_map_eq]
    rfl
  have hmemR : ((k, v) ∈ applyDiffOM A (diffOps A B) ↔
      omGet (applyDiffOM A (diffOps A B)) k = some v) :=
    ⟨fun h => mem_omGet _ _ _ hndR h, fun h => omGet_mem _ _ _ h⟩
  have hmemB : ((k, v) ∈ B ↔ omGet B k = some v) :=
    ⟨fun h => mem_omGet _ _ _ hB h, fun h => omGet_mem _ _ _ h⟩
  simp only [nonEmptyPairs, List.mem_filter, decide_eq_true_eq]
  rw [hmemR, hmemB]
  by_cases hk0 : k = ""
  · simp [hk0]
  by_cases hv0 : v = ""
  · simp [hv0]
  simp only [hk0, hv0, ne_eq, not_false_eq_true, and_true, true_and]
  -- now compute omGet at k on both sides
  cases hGB : omGet B k with
  | none =>
    have hfind : adds.find? (fun op => decide (op.opKey = k)) = none := by
      have hinner : (B.filter cA).find? (fun q => decide (q.1 = k)) = none := by
        rw [List.find?_eq_none]
        intro q hq hdec
        rw [List.mem_filter] at hq
        simp only [decide_eq_true_eq] at hdec
        have := hBget q.2 (by rw [← hdec]; exact hq.1)
        rw [hGB] at this
        cases this
      rw [hfindEq, hinner]
      rfl
    have hres : omGet (applyDiffOM A (diffOps A B)) k = none := by
      rw [hget]
      by_cases hrem : removes.any (fun op => decide (op.opKey = k)) = true
      · simp [hrem]
      · simp only [hrem, if_false, Bool.false_eq_true, hfind]
        rw [omGet_eq_none_iff]
        intro hkA
        exact hrem (hremAny.mpr ⟨hkA, Or.inl hGB⟩)
    rw [hres]
  | some bv =>
    by_cases hbv : bv = ""
    · subst hbv
      have hfind : adds.find? (fun op => decide (op.opKey = k)) = none := by
        have hinner : (B.filter cA).find? (fun q => decide (q.1 = k)) = none := by
          rw [List.find?_eq_none]
          intro q hq hdec
          rw [List.mem_filter] at hq
          simp only [decide_eq_true_eq] at hdec
          have hq2 := hBget q.2 (by rw [← hdec]; exact hq.1)
          rw [hGB] at hq2
          have hq2e : q.2 = "" := (Option.some.inj hq2).symm
          rw [hcA] at hq
          have hqc := hq.2
          simp only [decide_eq_true_eq] at hqc
          exact hqc.1 hq2e
        rw [hfindEq, hinner]
        rfl
      have hres : omGet (applyDiffOM A (diffOps A B)) k = none := by
        rw [hget]
        by_cases hrem : removes.any (fun op => decide (op.opKey = k)) = true
        · simp [hrem]
        · simp only [hrem, if_false, Bool.false_eq_true, hfind]
          rw [omGet_eq_none_iff]
          intro hkA
          exact hrem (hremAny.mpr ⟨hkA, Or.inr hGB⟩)
      rw [hres]
      simp only [reduceCtorEq, false_iff]
      intro he
      cases he
      exact hv0 rfl
    · -- B holds k with a non-empty value bv
      have hremF : removes.any (fun op => decide (op.opKey = k)) = false := by
        rw [Bool.eq_false_iff]
        intro hc
        rcases (hremAny.mp hc).2 with h | h
        · rw [hGB] at h
          cases h
        · rw [hGB] at h
          cases h
          exact hbv rfl
      have hres : omGet (applyDiffOM A (diffOps A B)) k = some bv := by
        rw [hget, hremF]
        simp only [Bool.false_eq_true, if_false]
        by_cases hGA : omGet A k = some bv
        · have hfind : adds.find? (fun op => decide (op.opKey = k)) = none := by
            have hinner : (B.filter cA).find? (fun q => decide (q.1 = k)) = none := by
              rw [List.find?_eq_none]
              intro q hq hdec
              rw [List.mem_filter] at hq
              simp only [decide_eq_true_eq] at hdec
              have hq2 := hBget q.2 (by rw [← hdec]; exact hq.1)
              rw [hGB] at hq2
              have hq2e : q.2 = bv := (Option.some.inj hq2).symm
              rw [hcA] at hq
              have hqc := hq.2
              simp only [decide_eq_true_eq] at hqc
              apply hqc.2
              rw [hdec, hq2e]
              exact hGA
            rw [hfindEq, hinner]
            rfl
          rw [hfind]
          exact hGA
        · have hmem : (k, bv) ∈ B.filter cA := by
            rw [List.mem_filter]
            refine ⟨omGet_mem B k bv hGB, ?_⟩
            rw [hcA]
            simp only [decide_eq_true_eq]
            exact ⟨hbv, hGA⟩
          cases hf : (B.filter cA).find? (fun q => decide (q.1 = k)) with
          | none =>
            rw [List.find?_eq_none] at hf
            exact absurd (by simp : decide (((k, bv) : String × String).1 = k) = true)
              (hf _ hmem)
          | some q =>
            have hqmem := List.mem_of_find?_eq_some hf
            have hqk : q.1 = k := by
              have := List.find?_some hf
              simpa using this
            rw [List.mem_filter] at hqmem
            have hq2 := hBget q.2 (by rw [← hqk]; exact hqmem.1)
            rw [hGB] at hq2
            have hq2e : q.2 = bv := (Option.some.inj hq2).symm
            rw [hfindEq, hf]
            simp [hq2e]
      rw [hres]

end ApplyOpLemmas

/-- Witness for the round-trip theorem at a concrete pair of maps. -/
theorem diff_apply_roundtrip_witness :
    (keysOf [(("A" : String), ("1" : String))]).Nodup ∧
    (keysOf [(("B" : String), ("2" : String))]).Nodup ∧
    ((("B", "2") : String × String) ∈
        nonEmptyPairs (applyDiffOM [("A", "1")] (diffOps [("A", "1")] [("B", "2")])) ↔
      (("B", "2") : String × String) ∈ nonEmptyPairs [("B", "2")]) :=
  ⟨by decide, by decide,
    diff_apply_roundtrip [("A", "1")] [("B", "2")] (by decide) (by decide) ("B", "2")⟩

section EnvStateLemmas

theorem setSlot_getElem_self (l : OM) (i : Nat) (p : String × String) :
    (setSlot l i p)[i]? = some p := by
  unfold setSlot
  by_cases h : i < l.length
  · rw [if_pos h]
    rw [List.getElem?_set_self]
    · simp [h]
  · rw [if_neg h]
    have hle : l.length ≤ i := Nat.le_of_not_lt h
    rw [List.append_assoc, List.getElem?_append_right hle]
    rw [List.getElem?_append_right (by simp [hle])]
    simp

theorem setSlot_length (l : OM) (i : Nat) (p : String × String) :
    (setSlot l i p).length = if i < l.length then l.length else i + 1 := by
  unfold setSlot
  by_cases h : i < l.length
  · simp [h]
  · have hle : l.length ≤ i := Nat.le_of_not_lt h
    simp [h]
    omega

theorem keyAt_setSlot_self (l : OM) (i : Nat) (p : String × String) :
    keyAt (setSlot l i p) i = p.1 := by
  rw [keyAt, setSlot_getElem_self]
  rfl

theorem trackChanges_entriesArr (s : EnvState) (i : Nat) :
    (trackChanges s i).entriesArr = s.entriesArr := rfl

theorem trackChanges_deletedIndices (s : EnvState) (i : Nat) :
    (trackChanges s i).deletedIndices = s.deletedIndices := rfl

theorem trackChanges_deletedLength (s : EnvState) (i : Nat) :
    (trackChanges s i).deletedLength = s.deletedLength := rfl

theorem removeEntryAtIndex_entriesArr (s : EnvState) (i : Nat) :
    (removeEntryAtIndex s i).entriesArr = s.entriesArr := rfl

theorem removeEntryAtIndex_deletedIndices (s : EnvState) (i : Nat) :
    (removeEntryAtIndex s i).deletedIndices = insert i s.deletedIndices := rfl

theorem setKeyAtIndex_entriesArr (s : EnvState) (i : Nat) (k : String) :
    (setKeyAtIndex s i k).entriesArr = setSlot s.entriesArr i (k, valAt s.entriesArr i) := by
  unfold setKeyAtIndex
  dsimp only
  split
  · split
    · rfl
    · rfl
  · rfl

theorem setValueAtIndex_entriesArr (s : EnvState) (i : Nat) (v : String) :
    (setValueAtIndex s i v).entriesArr = setSlot s.entriesArr i (keyAt s.entriesArr i, v) := by
  unfold setValueAtIndex
  dsimp only
  split
  · rfl
  · rfl

end EnvStateLemmas

section MapEnumeration

theorem mapE_foldl_collect (s : EnvState) {T : Type} (f : (String × String) → Nat → T)
    (l : List (Nat × (String × String))) (acc : List T) :
    l.foldl
      (fun prev q =>
        if q.1 ∈ s.deletedIndices then prev
        else if s.filterText ≠ "" ∧ fzMatch q.2.1 s.filterText = false then prev
        else prev ++ [f q.2 q.1])
      acc
    = acc ++ (l.filter (fun q => decide (q.1 ∉ s.deletedIndices ∧
        (s.filterText = "" ∨ fzMatch q.2.1 s.filterText = true)))).map (fun q => f q.2 q.1) := by
  induction l generalizing acc with
  | nil => simp
  | cons q l ih =>
    rw [List.foldl_cons]
    by_cases h1 : q.1 ∈ s.deletedIndices
    · rw [if_pos h1, ih, List.filter_cons_of_neg (by simp [h1])]
    · by_cases h2 : s.filterText ≠ "" ∧ fzMatch q.2.1 s.filterText = false
      · rw [if_neg h1, if_pos h2, ih, List.filter_cons_of_neg ?_]
        simp only [decide_eq_true_eq, not_and, not_or]
        refine fun _ => ⟨h2.1, ?_⟩
        rw [h2.2]
        exact Bool.false_ne_true
      · rw [if_neg h1, if_neg h2, ih, List.filter_cons_of_pos ?_]
        · simp
        · simp only [decide_eq_true_eq]
          refine ⟨h1, ?_⟩
          rw [not_and] at h2
          by_cases hft : s.filterText = ""
          · exact Or.inl hft
          · right
            have := h2 hft
            cases hfz : fzMatch q.2.1 s.filterText
            · exact absurd hfz this
            · rfl

theorem mapDeletedE_foldl_collect (s : EnvState) {T : Type}
    (f : (String × String) → Nat → T)
    (l : List (Nat × (String × String))) (acc : List T) :
    l.foldl (fun prev q => if q.1 ∈ s.deletedIndices then prev ++ [f q.2 q.1] else prev) acc
    = acc ++ (l.filter (fun q => decide (q.1 ∈ s.deletedIndices))).map (fun q => f q.2 q.1) := by
  induction l generalizing acc with
  | nil => simp
  | cons q l ih =>
    rw [List.foldl_cons]
    by_cases h1 : q.1 ∈ s.deletedIndices
    · rw [if_pos h1, ih, List.filter_cons_of_pos (by simp [h1]), List.map_cons]
      simp
    · rw [if_neg h1, ih, List.filter_cons_of_neg (by simp [h1])]

theorem mapDeletedE_visits {T : Type} (f : (String × String) → Nat → T) (s : EnvState) :
    mapDeletedE s f = (mapDeletedVisited s).map (fun q => f q.2 q.1) := by
  rw [mapDeletedE, mapDeletedVisited, mapDeletedE_foldl_collect, List.nil_append]

/-- Claim C7 — `map` enumeration: `map(fn)` applies `fn`, in backing order, to
exactly the non-deleted entries whose key passes the case-insensitive
fuzzy/subsequence filter (all non-deleted entries when the filter text is
empty), and then applies `fn` once more to the synthetic trailing pair
`("", "")` at index `length`, regardless of the filter. -/
theorem map_enumeration {T : Type} (f : (String × String) → Nat → T) (s : EnvState) :
    mapE s f = (mapVisited s).map (fun q => f q.2 q.1) ++ [f ("", "") s.length] ∧
    (s.filterText = "" →
      mapVisited s = s.entriesArr.enum.filter (fun q => decide (q.1 ∉ s.deletedIndices))) := by
  constructor
  · rw [mapE, mapVisited, mapE_foldl_collect]
    rw [List.nil_append]
  · intro hft
    rw [mapVisited]
    apply List.filter_congr
    intro q _
    simp [hft]

/-- Witness for the `map` enumeration theorem on a concrete session. -/
theorem map_enumeration_witness :
    (mkEnvState [("A", "1")]).filterText = "" ∧
    mapE (mkEnvState [("A", "1")]) (fun _ i => i) =
      (mapVisited (mkEnvState [("A", "1")])).map (fun q => q.1) ++
        [(mkEnvState [("A", "1")]).length] :=
  ⟨by decide, by simpa using (map_enumeration (fun _ i => i) (mkEnvState [("A", "1")])).1⟩

end MapEnumeration

/-- Claim C2 — evaluation of the code at the failing input: starting from
baseline `[("A","1"),("B","2")]`, the calls `setKeyAtIndex(0,"C")` then
`setKeyAtIndex(1,"C")` leave two pairs with key `"C"` in `entries()`:
`uniqueKeyMap` never registers a key written at an index it does not already
track, so the second write is not detected as a collision and uniqueness of
keys is violated. -/
theorem setKeyAtIndex_duplicate_keys :
    entriesOf (setKeyAtIndex (setKeyAtIndex (mkEnvState [("A", "1"), ("B", "2")]) 0 "C") 1 "C") =
      [("C", "1"), ("C", "2")] ∧
    ¬ (keysOf (entriesOf (setKeyAtIndex (setKeyAtIndex
        (mkEnvState [("A", "1"), ("B", "2")]) 0 "C") 1 "C"))).Nodup := by
  decide

/-- Claim C3 — evaluation of the code at the failing input: `dup()` copies
`_state` with `Object.assign`, which copies the nested `deletedIndices`,
`changedIndices` and `uniqueKeyMap` objects by reference; after
`s2 = s.dup(); s2.removeEntryAtIndex(0)` the original session's `entries()`
drops `("A","1")`, so `dup` does not give independent tracking state. -/
theorem dup_shares_tracking_state :
    entriesOf (mkEnvState [("A", "1")]) = [("A", "1")] ∧
    entriesOf (afterDupMutation (mkEnvState [("A", "1")])
      (removeEntryAtIndex (dupE (mkEnvState [("A", "1")])) 0)) = [] := by
  decide

section Reconciler

/-- Claim C4 — reconciler correctness: when a genuinely new baseline arrives
(no previous release, or a release with a different name), the resulting
working state is a fresh session from the new baseline, except that when the
previous session has uncommitted changes the diff from the previous baseline
to the previous session's entries is applied to the fresh session; and on the
concrete scenario of the spec (baseline `[("A","1")]` with index 0 deleted,
new baseline `[("A","1"),("C","3")]`) the resulting entries are
`[("C","3")]`. -/
theorem getDataStep_spec (prevRelease : Option Release) (prevEnvState : Option EnvState)
    (release : Release) (hnew : isNewRelease prevRelease release = true) :
    (getDataStep prevRelease prevEnvState release =
      match prevEnvState with
      | some pe =>
        if pe.hasChanges then
          applyDiffE (mkEnvState release.envMap)
            (diffOps (prevBaselineOf prevRelease) (entriesOf pe))
        else mkEnvState release.envMap
      | none => mkEnvState release.envMap) ∧
    entriesOf (getDataStep (some ⟨"r1", [("A", "1")]⟩)
      (some (removeEntryAtIndex (mkEnvState [("A", "1")]) 0))
      ⟨"r2", [("A", "1"), ("C", "3")]⟩) = [("C", "3")] := by
  constructor
  · unfold getDataStep
    rw [if_pos hnew]
    cases prevEnvState with
    | none => rfl
    | some pe =>
      dsimp only
      cases hc : pe.hasChanges with
      | false => simp
      | true =>
        simp only [if_true]
        cases hd : diffOps (prevBaselineOf prevRelease) (entriesOf pe) with
        | nil => simp [applyDiffE]
        | cons op d => simp
  · decide

/-- Witness for the reconciler theorem on the spec's concrete scenario. -/
theorem getDataStep_spec_witness :
    isNewRelease (some ⟨"r1", [("A", "1")]⟩) ⟨"r2", [("A", "1"), ("C", "3")]⟩ = true ∧
    entriesOf (getDataStep (some ⟨"r1", [("A", "1")]⟩)
      (some (removeEntryAtIndex (mkEnvState [("A", "1")]) 0))
      ⟨"r2", [("A", "1"), ("C", "3")]⟩) = [("C", "3")] :=
  ⟨by decide,
    (getDataStep_spec (some ⟨"r1", [("A", "1")]⟩)
      (some (removeEntryAtIndex (mkEnvState [("A", "1")]) 0))
      ⟨"r2", [("A", "1"), ("C", "3")]⟩ (by decide)).2⟩

end Reconciler

section ChangeTracking

theorem hasChanges_iff_track (s : EnvState) (i : Nat) :
    (trackChanges s i).hasChanges = true ↔ (trackChanges s i).changedIndices ≠ ∅ := by
  simp only [trackChanges]
  rw [decide_eq_true_eq, Finset.card_pos, Finset.nonempty_iff_ne_empty]

theorem hasChanges_iff_remove (s : EnvState) (i : Nat) :
    (removeEntryAtIndex s i).hasChanges = true ↔
      (removeEntryAtIndex s i).changedIndices ≠ ∅ :=
  hasChanges_iff_track _ i

theorem hasChanges_iff_setValue (s : EnvState) (i : Nat) (v : String) :
    (setValueAtIndex s i v).hasChanges = true ↔
      (setValueAtIndex s i v).changedIndices ≠ ∅ := by
  unfold setValueAtIndex
  dsimp only
  split
  · exact hasChanges_iff_remove _ _
  · exact hasChanges_iff_track _ _

theorem hasChanges_iff_setKey (s : EnvState) (i : Nat) (k : String) :
    (setKeyAtIndex s i k).hasChanges = true ↔
      (setKeyAtIndex s i k).changedIndices ≠ ∅ := by
  unfold setKeyAtIndex
  dsimp only
  split
  · split
    · exact hasChanges_iff_remove _ _
    · exact hasChanges_iff_track _ _
  · exact hasChanges_iff_track _ _

theorem hasChanges_iff_applyDiffOp (s : EnvState) (op : DiffOp)
    (h : s.hasChanges = true ↔ s.changedIndices ≠ ∅) :
    (applyDiffOpE s op).hasChanges = true ↔ (applyDiffOpE s op).changedIndices ≠ ∅ := by
  unfold applyDiffOpE
  cases op with
  | add k v =>
    dsimp only
    split
    · exact hasChanges_iff_setValue _ _ _
    · exact h
  | remove k =>
    dsimp only
    split
    · exact hasChanges_iff_remove _ _
    · exact h

theorem hasChanges_iff_applyDiff (s : EnvState) (d : List DiffOp)
    (h : s.hasChanges = true ↔ s.changedIndices ≠ ∅) :
    (applyDiffE s d).hasChanges = true ↔ (applyDiffE s d).changedIndices ≠ ∅ := by
  induction d generalizing s with
  | nil => exact h
  | cons op d ih => exact ih _ (hasChanges_iff_applyDiffOp s op h)

/-- Claim C5 (amended) — change tracking: for every reachable session,
`hasChanges` holds iff `changedIndices` is non-empty. (The stronger reading
"`hasChanges` iff `entries()` differs from the baseline's non-empty pairs" is
refuted by the accompanying counterexample.) -/
theorem hasChanges_iff_changedIndices (s : EnvState) (hs : Reachable s) :
    s.hasChanges = true ↔ s.changedIndices ≠ ∅ := by
  induction hs with
  | mk baseline => simp [mkEnvState]
  | setKey i k _ _ _ => exact hasChanges_iff_setKey _ _ _
  | setVal i v _ _ _ => exact hasChanges_iff_setValue _ _ _
  | remove i _ _ _ => exact hasChanges_iff_remove _ _
  | applyD d _ ih => exact hasChanges_iff_applyDiff _ _ ih

/-- Witness for the change-tracking equivalence on a concrete session. -/
theorem hasChanges_iff_changedIndices_witness :
    (mkEnvState [("A", "1")]).hasChanges = true ↔
      (mkEnvState [("A", "1")]).changedIndices ≠ ∅ :=
  hasChanges_iff_changedIndices (mkEnvState [("A", "1")]) (Reachable.mk _)

/-- Claim C5 — counterexample to the claim as stated: on the empty baseline,
`setKeyAtIndex(0, "A")` sets `hasChanges` although `entries()` still equals
the baseline's non-empty pairs (the new row's value is empty, so the entry is
filtered out of `entries()`). -/
theorem hasChanges_entries_divergence :
    (setKeyAtIndex (mkEnvState []) 0 "A").hasChanges = true ∧
    entriesOf (setKeyAtIndex (mkEnvState []) 0 "A") =
      nonEmptyPairs (setKeyAtIndex (mkEnvState []) 0 "A").originalEntries ∧
    ¬ ((setKeyAtIndex (mkEnvState []) 0 "A").hasChanges = true ↔
        entriesOf (setKeyAtIndex (mkEnvState []) 0 "A") ≠
          nonEmptyPairs (setKeyAtIndex (mkEnvState []) 0 "A").originalEntries) := by
  decide

end ChangeTracking

section SetValueSpec

theorem setValueAtIndex_eq_remove (s : EnvState) (i : Nat) (v : String)
    (h : v = "" ∧ keyAt s.entriesArr i = "") :
    setValueAtIndex s i v =
      removeEntryAtIndex
        { s with
          entriesArr := setSlot s.entriesArr i (keyAt s.entriesArr i, v)
          length := (setSlot s.entriesArr i (keyAt s.entriesArr i, v)).length } i := by
  unfold setValueAtIndex
  dsimp only
  rw [if_pos]
  exact ⟨h.1, by rw [keyAt_setSlot_self]; exact h.2⟩

theorem setValueAtIndex_eq_track (s : EnvState) (i : Nat) (v : String)
    (h : ¬ (v = "" ∧ keyAt s.entriesArr i = "")) :
    setValueAtIndex s i v =
      trackChanges
        { s with
          entriesArr := setSlot s.entriesArr i (keyAt s.entriesArr i, v)
          length := (setSlot s.entriesArr i (keyAt s.entriesArr i, v)).length } i := by
  unfold setValueAtIndex
  dsimp only
  rw [if_neg]
  intro hc
  apply h
  refine ⟨hc.1, ?_⟩
  rw [keyAt_setSlot_self] at hc
  exact hc.2

/-- Claim C6 — `setValueAtIndex(i, value)` rewrites the value at `i`
preserving the key; if the resulting pair is `("","")` the index becomes
deleted and is excluded from the `entries()` and `map()` enumerations;
otherwise the index's changed status is recomputed by the tracking rule
against the original baseline. -/
theorem setValueAtIndex_spec (s : EnvState) (i : Nat) (v : String)
    (hi : i ≤ s.entriesArr.length) :
    (setValueAtIndex s i v).entriesArr[i]? = some (keyAt s.entriesArr i, v) ∧
    ((keyAt s.entriesArr i = "" ∧ v = "") →
      i ∈ (setValueAtIndex s i v).deletedIndices ∧
      (∀ q ∈ entriesIdx (setValueAtIndex s i v), q.1 ≠ i) ∧
      (∀ q ∈ mapVisited (setValueAtIndex s i v), q.1 ≠ i)) ∧
    (¬ (keyAt s.entriesArr i = "" ∧ v = "") →
      (i ∈ (setValueAtIndex s i v).changedIndices ↔
        (if i ∈ s.deletedIndices then i < s.originalEntries.length
         else ¬ entriesEqual s.originalEntries[i]?
            ((setValueAtIndex s i v).entriesArr[i]?) = true))) := by
  have harr : (setValueAtIndex s i v).entriesArr =
      setSlot s.entriesArr i (keyAt s.entriesArr i, v) := setValueAtIndex_entriesArr s i v
  have hslot : (setValueAtIndex s i v).entriesArr[i]? =
      some (keyAt s.entriesArr i, v) := by
    rw [harr, setSlot_getElem_self]
  refine ⟨hslot, ?_, ?_⟩
  · rintro ⟨hk, hv⟩
    have heq := setValueAtIndex_eq_remove s i v ⟨hv, hk⟩
    have hdel : i ∈ (setValueAtIndex s i v).deletedIndices := by
      rw [heq, removeEntryAtIndex_deletedIndices]
      exact Finset.mem_insert_self i _
    refine ⟨hdel, ?_, ?_⟩
    · intro q hq hqi
      rw [entriesIdx, List.mem_filter] at hq
      have hcond := hq.2
      simp only [decide_eq_true_eq] at hcond
      exact hcond.1 (hqi ▸ hdel)
    · intro q hq hqi
      rw [mapVisited, List.mem_filter] at hq
      have hcond := hq.2
      simp only [decide_eq_true_eq] at hcond
      exact hcond.1 (hqi ▸ hdel)
  · intro hne
    have h' : ¬ (v = "" ∧ keyAt s.entriesArr i = "") := fun hc => hne ⟨hc.2, hc.1⟩
    have heq := setValueAtIndex_eq_track s i v h'
    rw [hslot]
    rw [heq]
    unfold trackChanges
    dsimp only
    by_cases hd : i ∈ s.deletedIndices
    · rw [if_pos hd, if_pos hd]
      by_cases ho : i < s.originalEntries.length
      · simp [ho]
      · simp [ho]
    · rw [if_neg hd, if_neg hd]
      rw [setSlot_getElem_self]
      by_cases he : entriesEqual s.originalEntries[i]? (some (keyAt s.entriesArr i, v)) = true
      · simp [he]
      · simp [he]

/-- Witness for the `setValueAtIndex` specification on a concrete session. -/
theorem setValueAtIndex_spec_witness :
    (0 ≤ (mkEnvState [("A", "1")]).entriesArr.length) ∧
    ((setValueAtIndex (mkEnvState [("A", "1")]) 0 "9").entriesArr[0]? =
      some (keyAt (mkEnvState [("A", "1")]).entriesArr 0, "9")) :=
  ⟨by decide, (setValueAtIndex_spec (mkEnvState [("A", "1")]) 0 "9" (by decide)).1⟩

end SetValueSpec

section RestoreSpec

/-- Claim C8 — deletion reversibility: `removeEntryAtIndex(i)` followed by
`setKeyAtIndex(i, k)` leaves index `i` non-deleted, with key `k` and the
value the slot held before the deletion (empty when there was none). -/
theorem remove_setKey_restores (s : EnvState) (i : Nat) (k : String)
    (hi : i ≤ s.entriesArr.length) :
    i ∉ (setKeyAtIndex (removeEntryAtIndex s i) i k).deletedIndices ∧
    (setKeyAtIndex (removeEntryAtIndex s i) i k).entriesArr[i]? =
      some (k, valAt s.entriesArr i) := by
  constructor
  · unfold setKeyAtIndex
    dsimp only
    split
    · split
      · rename_i j _ hc
        simp only [trackChanges, removeEntryAtIndex]
        rw [Finset.mem_insert]
        push_neg
        refine ⟨fun he => hc.1 he.symm, ?_⟩
        simp
      · simp [trackChanges, removeEntryAtIndex]
    · simp [trackChanges, removeEntryAtIndex]
  · rw [setKeyAtIndex_entriesArr, removeEntryAtIndex_entriesArr, setSlot_getElem_self]

/-- Witness for deletion reversibility on a concrete session. -/
theorem remove_setKey_restores_witness :
    (0 ≤ (mkEnvState [("A", "1")]).entriesArr.length) ∧
    (0 ∉ (setKeyAtIndex (removeEntryAtIndex (mkEnvState [("A", "1")]) 0) 0 "B").deletedIndices ∧
      (setKeyAtIndex (removeEntryAtIndex (mkEnvState [("A", "1")]) 0) 0 "B").entriesArr[0]? =
        some ("B", valAt (mkEnvState [("A", "1")]).entriesArr 0)) :=
  ⟨by decide, remove_setKey_restores (mkEnvState [("A", "1")]) 0 "B" (by decide)⟩

end RestoreSpec

section ApplyDiffSpec

/-- Claim C9 — `applyDiff` add operations: an `Add(k, "")` leaves the session
exactly unchanged; an `Add(k, v)` with `v ≠ ""` writes key and value at the
first backing index whose key matches (tombstoned slots included) or at the
array's end when the key is absent, and the slot at that index ends up
holding `(k, v)`; when the key is absent the backing array grows by one. -/
theorem applyDiff_add_spec (s : EnvState) (k : String) :
    applyDiffOpE s (DiffOp.add k "") = s ∧
    (∀ v, v ≠ "" →
      applyDiffOpE s (DiffOp.add k v) =
        setValueAtIndex (setKeyAtIndex s (upsertIndex s k) k) (upsertIndex s k) v ∧
      ((applyDiffOpE s (DiffOp.add k v)).entriesArr)[upsertIndex s k]? = some (k, v) ∧
      (s.entriesArr.findIdx? (fun p => p.1 == k) = none →
        (applyDiffOpE s (DiffOp.add k v)).entriesArr.length = s.entriesArr.length + 1)) := by
  constructor
  · simp [applyDiffOpE]
  · intro v hv
    have heq : applyDiffOpE s (DiffOp.add k v) =
        setValueAtIndex (setKeyAtIndex s (upsertIndex s k) k) (upsertIndex s k) v := by
      simp [applyDiffOpE, upsertIndex, DiffOp.opKey, hv]
    refine ⟨heq, ?_, ?_⟩
    · rw [heq, setValueAtIndex_entriesArr]
      rw [setKeyAtIndex_entriesArr, keyAt_setSlot_self, setSlot_getElem_self]
    · intro hnone
      have hidx : upsertIndex s k = s.entriesArr.length := by
        rw [upsertIndex, hnone]
        rfl
      rw [heq, setValueAtIndex_entriesArr, setKeyAtIndex_entriesArr, hidx]
      have hlen1 : (setSlot s.entriesArr s.entriesArr.length
          (k, valAt s.entriesArr s.entriesArr.length)).length =
          s.entriesArr.length + 1 := by
        rw [setSlot_length, if_neg (lt_irrefl _)]
      rw [setSlot_length, hlen1, if_pos (by omega)]

/-- Witness for the `applyDiff` add specification on a concrete session. -/
theorem applyDiff_add_spec_witness :
    (("x" : String) ≠ "") ∧
    applyDiffOpE (mkEnvState [("A", "1")]) (DiffOp.add "A" "x") =
      setValueAtIndex
        (setKeyAtIndex (mkEnvState [("A", "1")]) (upsertIndex (mkEnvState [("A", "1")]) "A") "A")
        (upsertIndex (mkEnvState [("A", "1")]) "A") "x" :=
  ⟨by decide, ((applyDiff_add_spec (mkEnvState [("A", "1")]) "A").2 "x" (by decide)).1⟩

end ApplyDiffSpec

section DeleteBeyondOriginal

/-- Claim C10 — counterexample to the claim as stated: deleting the synthetic
row (index 1, at the backing array's end) of baseline `[("A","1")]` records a
tombstone counted by `deletedLength`, yet `mapDeleted` enumerates nothing:
the reduce only visits indices that exist in the backing array. -/
theorem removeEntry_beyond_mapDeleted_cex :
    (removeEntryAtIndex (mkEnvState [("A", "1")]) 1).deletedLength = 1 ∧
    mapDeletedE (removeEntryAtIndex (mkEnvState [("A", "1")]) 1) (fun _ j => j) = [] := by
  decide

/-- Claim C10 (amended) — deleting a non-tombstoned index at or beyond the
original baseline's length increments `deletedLength` and removes the index
from `changedIndices`; `mapDeleted` enumerates the index when it lies inside
the backing array (an index at or beyond the array's end — e.g. the synthetic
row — is counted by `deletedLength` but not enumerated, as the accompanying
counterexample shows); hence a session can have `hasChanges = false` together
with `deletedLength > 0`. -/
theorem removeEntry_beyond_original (s : EnvState) (i : Nat)
    (hdel : i ∉ s.deletedIndices) (horig : s.originalEntries.length ≤ i)
    (hlen : s.deletedLength = s.deletedIndices.card) :
    (removeEntryAtIndex s i).deletedLength = s.deletedLength + 1 ∧
    i ∉ (removeEntryAtIndex s i).changedIndices ∧
    (i < s.entriesArr.length →
      i ∈ mapDeletedE (removeEntryAtIndex s i) (fun _ j => j)) ∧
    ((removeEntryAtIndex (mkEnvState [("A", "1")]) 1).hasChanges = false ∧
      0 < (removeEntryAtIndex (mkEnvState [("A", "1")]) 1).deletedLength) := by
  refine ⟨?_, ?_, ?_, by decide⟩
  · show (trackChanges _ i).deletedLength = _
    rw [trackChanges_deletedLength]
    dsimp only
    rw [Finset.card_insert_of_not_mem hdel, hlen]
  · unfold removeEntryAtIndex trackChanges
    dsimp only
    rw [if_pos (Finset.mem_insert_self i _), if_neg (by omega)]
    exact Finset.not_mem_erase i _
  · intro hlt
    rw [mapDeletedE_visits, List.mem_map]
    refine ⟨(i, s.entriesArr[i]), ?_, rfl⟩
    rw [mapDeletedVisited, List.mem_filter]
    constructor
    · rw [removeEntryAtIndex_entriesArr, List.mk_mem_enum_iff_getElem?]
      exact List.getElem?_eq_getElem hlt
    · simp only [decide_eq_true_eq, removeEntryAtIndex_deletedIndices]
      exact Finset.mem_insert_self i _

/-- Witness for the tombstone-beyond-baseline theorem on a concrete session:
the session gained a second row via `setKeyAtIndex(1, "B")`, so index 1 lies
beyond the original baseline but inside the backing array. -/
theorem removeEntry_beyond_original_witness :
    (1 ∉ (setKeyAtIndex (mkEnvState [("A", "1")]) 1 "B").deletedIndices ∧
      (setKeyAtIndex (mkEnvState [("A", "1")]) 1 "B").originalEntries.length ≤ 1 ∧
      (setKeyAtIndex (mkEnvState [("A", "1")]) 1 "B").deletedLength =
        (setKeyAtIndex (mkEnvState [("A", "1")]) 1 "B").deletedIndices.card) ∧
    (removeEntryAtIndex (setKeyAtIndex (mkEnvState [("A", "1")]) 1 "B") 1).deletedLength =
      (setKeyAtIndex (mkEnvState [("A", "1")]) 1 "B").deletedLength + 1 :=
  ⟨⟨by decide, by decide, by decide⟩,
    (removeEntry_beyond_original (setKeyAtIndex (mkEnvState [("A", "1")]) 1 "B") 1
      (by decide) (by decide) (by decide)).1⟩

end DeleteBeyondOriginal
